import Mathlib

/-!
Verification of the wulfe/ui composite-widget library.

Shallow embedding of the core state logic of the library:
the focus-navigation utility, the accordion container and its items,
the tree container with tri-state checkbox propagation and single
selection, the dialog stack coordinator, and the event-notification
primitive. Definitions are translated from the TypeScript sources in
packages/components/src; theorems settle the spec claims about them.
-/

namespace WulfeUI

/-! ## Focus-navigation utility (packages/components/src/utils/focus.ts) -/

/-- An element of the navigation list, as seen by findNextFocusable:
only its disabled attribute matters, the uid distinguishes items. -/
structure FocusEl where
  uid : Nat
  disabled : Bool
deriving Repr, DecidableEq

/-- Direction argument of findNextFocusable. -/
inductive FocusDirection where
  | next
  | previous
  | first
  | last
deriving Repr, DecidableEq

/-- Embeds the expression elements.find(el => !el.hasAttribute(disabled)). -/
def firstEnabled (elements : List FocusEl) : Option FocusEl :=
  elements.find? (fun el => ! el.disabled)

/-- Embeds [...elements].reverse().find(el => !el.hasAttribute(disabled)). -/
def lastEnabled (elements : List FocusEl) : Option FocusEl :=
  elements.reverse.find? (fun el => ! el.disabled)

/-- The while loop of findNextFocusable: starting at nextIndex, step by
iterator while the index stays inside the list, returning the first
element that is not disabled. The fuel argument only bounds the number
of iterations; the loop itself stops at the list boundary, so any fuel
larger than the number of in-range steps reproduces the loop exactly. -/
def scanLoop (elements : List FocusEl) (iterator : Int) : Nat → Int → Option FocusEl
  | 0, _ => none
  | fuel + 1, nextIndex =>
    if 0 ≤ nextIndex ∧ nextIndex < (elements.length : Int) then
      match elements[nextIndex.toNat]? with
      | some nextItem =>
        if ! nextItem.disabled then some nextItem
        else scanLoop elements iterator fuel (nextIndex + iterator)
      | none => scanLoop elements iterator fuel (nextIndex + iterator)
    else none

/-- Embeds findNextFocusable (focus.ts, variant with the wrap parameter,
lines 50 to 87). currentIndex is an Int because callers obtain it from
findIndex, which yields -1 on a miss. -/
def findNextFocusable (elements : List FocusEl) (currentIndex : Int)
    (direction : FocusDirection) (wrap : Bool) : Option FocusEl :=
  if elements.length = 0 then none
  else
    match direction with
    | .first => firstEnabled elements
    | .last => lastEnabled elements
    | .next =>
      match scanLoop elements 1 (elements.length + 1) (currentIndex + 1) with
      | some el => some el
      | none => if ! wrap then none else firstEnabled elements
    | .previous =>
      match scanLoop elements (-1) (elements.length + 1) (currentIndex + (-1)) with
      | some el => some el
      | none => if ! wrap then none else lastEnabled elements

/-- Spec-side scan for direction next, following the spec words: starting
one position beyond currentIndex, scan forward for the first non-disabled
item, reaching the boundary otherwise. -/
def specScanNext (elements : List FocusEl) (currentIndex : Int) : Option FocusEl :=
  if currentIndex + 1 < 0 then none
  else (elements.drop (currentIndex + 1).toNat).find? (fun el => ! el.disabled)

/-- Spec-side scan for direction previous: starting one position before
currentIndex, scan backward for the first non-disabled item. -/
def specScanPrevious (elements : List FocusEl) (currentIndex : Int) : Option FocusEl :=
  if currentIndex - 1 < 0 then none
  else ((elements.take ((currentIndex - 1).toNat + 1)).reverse).find? (fun el => ! el.disabled)

/-- Function written from the spec sentences for the navigation contract:
first and last return the first or last non-disabled item; next and
previous scan from one beyond currentIndex and, at the boundary, wrap to
the opposite end when wrap is set and return none otherwise. -/
def specFindNextFocusable (elements : List FocusEl) (currentIndex : Int)
    (direction : FocusDirection) (wrap : Bool) : Option FocusEl :=
  match direction with
  | .first => firstEnabled elements
  | .last => lastEnabled elements
  | .next =>
    match specScanNext elements currentIndex with
    | some el => some el
    | none => if wrap then firstEnabled elements else none
  | .previous =>
    match specScanPrevious elements currentIndex with
    | some el => some el
    | none => if wrap then lastEnabled elements else none

/-! Lemmas relating the fuel-bounded loop to list combinators. -/

theorem scanLoop_neg (elements : List FocusEl) (iterator : Int) (fuel : Nat) (s : Int)
    (hs : s < 0) : scanLoop elements iterator fuel s = none := by
  cases fuel with
  | zero => rfl
  | succ fuel =>
    unfold scanLoop
    rw [if_neg]
    omega

theorem scanLoop_ge (elements : List FocusEl) (iterator : Int) (fuel : Nat) (s : Int)
    (hs : (elements.length : Int) ≤ s) : scanLoop elements iterator fuel s = none := by
  cases fuel with
  | zero => rfl
  | succ fuel =>
    unfold scanLoop
    rw [if_neg]
    omega

theorem scanLoop_next_eq (elements : List FocusEl) :
    ∀ fuel : Nat, ∀ s : Int, 0 ≤ s → elements.length < fuel + s.toNat →
      scanLoop elements 1 fuel s = (elements.drop s.toNat).find? (fun el => ! el.disabled) := by
  intro fuel
  induction fuel with
  | zero =>
    intro s hs hfuel
    have hge : elements.length ≤ s.toNat := by omega
    rw [List.drop_eq_nil_of_le hge]
    rfl
  | succ fuel ih =>
    intro s hs hfuel
    by_cases hlt : s < (elements.length : Int)
    · have hnat : s.toNat < elements.length := by omega
      rw [List.drop_eq_getElem_cons hnat]
      unfold scanLoop
      rw [if_pos ⟨hs, hlt⟩, List.getElem?_eq_getElem hnat]
      by_cases hdis : elements[s.toNat].disabled
      · rw [List.find?_cons_of_neg _ (by simp [hdis])]
        simp only [hdis, Bool.not_true]
        rw [if_neg (by simp)]
        have h2 : (s + 1).toNat = s.toNat + 1 := by omega
        have hf2 : elements.length < fuel + (s + 1).toNat := by omega
        rw [ih (s + 1) (by omega) hf2, h2]
      · rw [List.find?_cons_of_pos _ (by simp [hdis])]
        simp only [Bool.not_eq_true] at hdis
        simp only [hdis, Bool.not_false]
        simp
    · rw [scanLoop_ge elements 1 (fuel + 1) s (by omega)]
      have hge : elements.length ≤ s.toNat := by omega
      rw [List.drop_eq_nil_of_le hge]
      rfl

theorem scanLoop_prev_eq (elements : List FocusEl) :
    ∀ fuel : Nat, ∀ s : Int, 0 ≤ s → s < (elements.length : Int) → s.toNat < fuel →
      scanLoop elements (-1) fuel s =
        ((elements.take (s.toNat + 1)).reverse).find? (fun el => ! el.disabled) := by
  intro fuel
  induction fuel with
  | zero => intro s hs hlt hfuel; omega
  | succ fuel ih =>
    intro s hs hlt hfuel
    have hnat : s.toNat < elements.length := by omega
    have htake : elements.take (s.toNat + 1) = elements.take s.toNat ++ [elements[s.toNat]] := by
      rw [List.take_succ]
      congr
      rw [List.getElem?_eq_getElem hnat]
      rfl
    have hrev : (elements.take (s.toNat + 1)).reverse
        = elements[s.toNat] :: (elements.take s.toNat).reverse := by
      rw [htake, List.reverse_append, List.reverse_singleton, List.singleton_append]
    rw [hrev]
    unfold scanLoop
    rw [if_pos ⟨hs, hlt⟩, List.getElem?_eq_getElem hnat]
    by_cases hdis : elements[s.toNat].disabled
    · rw [List.find?_cons_of_neg _ (by simp [hdis])]
      simp only [hdis, Bool.not_true]
      rw [if_neg (by simp)]
      by_cases hzero : s = 0
      · subst hzero
        rw [scanLoop_neg elements (-1) fuel (0 + -1) (by omega)]
        simp only [Int.toNat_zero, List.take_zero, List.reverse_nil, List.find?_nil]
      · have h2 : (s + -1).toNat = s.toNat - 1 := by omega
        have h3 : s.toNat - 1 + 1 = s.toNat := by omega
        rw [ih (s + -1) (by omega) (by omega) (by omega), h2, h3]
    · rw [List.find?_cons_of_pos _ (by simp [hdis])]
      simp only [Bool.not_eq_true] at hdis
      simp only [hdis, Bool.not_false]
      simp
/-! Helper facts about the enabled-item searches. -/

theorem firstEnabled_some (elements : List FocusEl) (el : FocusEl)
    (h : firstEnabled elements = some el) : el.disabled = false := by
  have := List.find?_some h
  simpa using this

theorem lastEnabled_some (elements : List FocusEl) (el : FocusEl)
    (h : lastEnabled elements = some el) : el.disabled = false := by
  have := List.find?_some h
  simpa using this

theorem firstEnabled_none (elements : List FocusEl)
    (h : firstEnabled elements = none) : ∀ el ∈ elements, el.disabled = true := by
  intro el hel
  have := List.find?_eq_none.mp h el hel
  simpa using this

theorem lastEnabled_none (elements : List FocusEl)
    (h : lastEnabled elements = none) : ∀ el ∈ elements, el.disabled = true := by
  intro el hel
  have := List.find?_eq_none.mp h el (List.mem_reverse.mpr hel)
  simpa using this

theorem scanLoop_disabled_false (elements : List FocusEl) (iterator : Int) :
    ∀ (fuel : Nat) (s : Int) (el : FocusEl),
      scanLoop elements iterator fuel s = some el → el.disabled = false := by
  intro fuel
  induction fuel with
  | zero => intro s el h; cases h
  | succ fuel ih =>
    intro s el h
    unfold scanLoop at h
    by_cases hr : 0 ≤ s ∧ s < (elements.length : Int)
    · rw [if_pos hr] at h
      cases hg : elements[s.toNat]? with
      | none =>
        simp only [hg] at h
        exact ih _ _ h
      | some item =>
        simp only [hg] at h
        by_cases hdis : item.disabled
        · rw [if_neg (by simp [hdis])] at h
          exact ih _ _ h
        · rw [if_pos (by simp [hdis])] at h
          have h2 : item = el := Option.some.inj h
          subst h2
          simpa using hdis
    · rw [if_neg hr] at h
      cases h

/-! Equivalence of the implementation with the spec-side description,
for in-contract values of currentIndex. -/

theorem findNextFocusable_eq_spec (elements : List FocusEl) (currentIndex : Int)
    (direction : FocusDirection) (wrap : Bool)
    (hlo : -1 ≤ currentIndex) (hhi : currentIndex ≤ (elements.length : Int)) :
    findNextFocusable elements currentIndex direction wrap
      = specFindNextFocusable elements currentIndex direction wrap := by
  by_cases hnil : elements.length = 0
  · have hempty : elements = [] := List.length_eq_zero.mp hnil
    subst hempty
    cases direction with
    | first => rfl
    | last => rfl
    | next =>
      unfold findNextFocusable specFindNextFocusable specScanNext
      rw [if_pos (show ([] : List FocusEl).length = 0 from rfl)]
      by_cases hneg : currentIndex + 1 < 0
      · rw [if_pos hneg]
        cases wrap <;> rfl
      · rw [if_neg hneg]
        simp only [List.drop_nil, List.find?_nil]
        cases wrap <;> rfl
    | previous =>
      unfold findNextFocusable specFindNextFocusable specScanPrevious
      rw [if_pos (show ([] : List FocusEl).length = 0 from rfl)]
      by_cases hneg : currentIndex - 1 < 0
      · rw [if_pos hneg]
        cases wrap <;> rfl
      · rw [if_neg hneg]
        simp only [List.take_nil, List.reverse_nil, List.find?_nil]
        cases wrap <;> rfl
  · unfold findNextFocusable specFindNextFocusable
    rw [if_neg hnil]
    cases direction with
    | first => rfl
    | last => rfl
    | next =>
      rw [scanLoop_next_eq elements (elements.length + 1) (currentIndex + 1)
        (by omega) (by omega)]
      unfold specScanNext
      rw [if_neg (show ¬ currentIndex + 1 < 0 by omega)]
      cases hfind : (elements.drop (currentIndex + 1).toNat).find? (fun el => ! el.disabled) with
      | some el => rfl
      | none => cases wrap <;> rfl
    | previous =>
      have hm : currentIndex + (-1) = currentIndex - 1 := by ring
      rw [hm]
      unfold specScanPrevious
      by_cases hneg : currentIndex - 1 < 0
      · rw [scanLoop_neg elements (-1) (elements.length + 1) (currentIndex - 1) hneg]
        rw [if_pos hneg]
        cases wrap <;> rfl
      · have hlen1 : currentIndex - 1 < (elements.length : Int) := by omega
        rw [scanLoop_prev_eq elements (elements.length + 1) (currentIndex - 1)
          (by omega) hlen1 (by omega)]
        rw [if_neg hneg]
        cases hfind : ((elements.take ((currentIndex - 1).toNat + 1)).reverse).find?
            (fun el => ! el.disabled) with
        | some el => rfl
        | none => cases wrap <;> rfl

/-- Demonstration list for the focus-utility claims: five items, all
disabled except the one at index 2. -/
def focusDemoList : List FocusEl :=
  [⟨0, true⟩, ⟨1, true⟩, ⟨2, false⟩, ⟨3, true⟩, ⟨4, true⟩]

theorem focusDemo_drop_find (n : Nat) :
    (focusDemoList.drop n).find? (fun el => ! el.disabled)
      = if n ≤ 2 then some ⟨2, false⟩ else none := by
  match n with
  | 0 => rfl
  | 1 => rfl
  | 2 => rfl
  | 3 => rfl
  | 4 => rfl
  | n + 5 =>
    rw [List.drop_eq_nil_of_le (by simp [focusDemoList]), if_neg (by omega)]
    rfl

theorem focusDemo_next_always (i : Int) :
    findNextFocusable focusDemoList i .next true = some ⟨2, false⟩ := by
  unfold findNextFocusable
  rw [if_neg (by simp [focusDemoList])]
  by_cases hneg : i + 1 < 0
  · rw [scanLoop_neg focusDemoList 1 (focusDemoList.length + 1) (i + 1) hneg]
    rfl
  · rw [scanLoop_next_eq focusDemoList (focusDemoList.length + 1) (i + 1)
      (by omega) (by omega)]
    rw [focusDemo_drop_find]
    by_cases h2 : (i + 1).toNat ≤ 2
    · rw [if_pos h2]
    · rw [if_neg h2]
      rfl

/-- C5: findNextFocusable scans from one position beyond currentIndex in
the given direction and returns the first non-disabled item found; at the
boundary it wraps to the first or last non-disabled item when wrap is set
and returns none when wrap is false; over a list where every item except
index 2 is disabled, direction next with wrap always yields the item at
index 2, and with wrap false and no enabled item ahead it yields none. -/
theorem claim_C5_findNextFocusable_contract :
    (∀ (elements : List FocusEl) (currentIndex : Int) (direction : FocusDirection) (wrap : Bool),
        -1 ≤ currentIndex → currentIndex ≤ (elements.length : Int) →
        findNextFocusable elements currentIndex direction wrap
          = specFindNextFocusable elements currentIndex direction wrap)
    ∧ (∀ i : Int, findNextFocusable focusDemoList i .next true = some ⟨2, false⟩)
    ∧ findNextFocusable focusDemoList 2 .next false = none :=
  ⟨fun elements currentIndex direction wrap h1 h2 =>
      findNextFocusable_eq_spec elements currentIndex direction wrap h1 h2,
    focusDemo_next_always, by decide⟩

/-- Witness for C5 at a concrete input. -/
theorem claim_C5_witness :
    findNextFocusable focusDemoList 0 .previous true
      = specFindNextFocusable focusDemoList 0 .previous true :=
  claim_C5_findNextFocusable_contract.1 focusDemoList 0 .previous true (by decide) (by decide)

/-- C6 counterexample: with wrap = false the function returns none on a
one-element list whose only item is enabled, refuting the claim that none
is returned only for an empty or fully disabled list under every wrap
setting. -/
theorem claim_C6_counterexample :
    findNextFocusable [⟨0, false⟩] 0 .next false = none
    ∧ (⟨0, false⟩ : FocusEl) ∈ ([⟨0, false⟩] : List FocusEl)
    ∧ (⟨0, false⟩ : FocusEl).disabled = false := by
  decide

/-- C6 amended: findNextFocusable never returns a disabled item, and when
wrap is true or the direction is first or last, it returns none only when
every item of the list is disabled (vacuously, when the list is empty). -/
theorem claim_C6_no_disabled_result (elements : List FocusEl) (currentIndex : Int)
    (direction : FocusDirection) (wrap : Bool) :
    (∀ el, findNextFocusable elements currentIndex direction wrap = some el →
      el.disabled = false)
    ∧ ((wrap = true ∨ direction = .first ∨ direction = .last) →
        findNextFocusable elements currentIndex direction wrap = none →
        ∀ el ∈ elements, el.disabled = true) := by
  constructor
  · intro el h
    unfold findNextFocusable at h
    by_cases hnil : elements.length = 0
    · rw [if_pos hnil] at h
      cases h
    · rw [if_neg hnil] at h
      cases direction with
      | first => exact firstEnabled_some elements el h
      | last => exact lastEnabled_some elements el h
      | next =>
        cases hscan : scanLoop elements 1 (elements.length + 1) (currentIndex + 1) with
        | some e2 =>
          rw [hscan] at h
          have h2 : e2 = el := Option.some.inj h
          subst h2
          exact scanLoop_disabled_false elements 1 _ _ e2 hscan
        | none =>
          rw [hscan] at h
          cases wrap with
          | false => cases h
          | true => exact firstEnabled_some elements el h
      | previous =>
        cases hscan : scanLoop elements (-1) (elements.length + 1) (currentIndex + (-1)) with
        | some e2 =>
          rw [hscan] at h
          have h2 : e2 = el := Option.some.inj h
          subst h2
          exact scanLoop_disabled_false elements (-1) _ _ e2 hscan
        | none =>
          rw [hscan] at h
          cases wrap with
          | false => cases h
          | true => exact lastEnabled_some elements el h
  · intro hwd hnone el hel
    unfold findNextFocusable at hnone
    by_cases hnil : elements.length = 0
    · have hempty : elements = [] := List.length_eq_zero.mp hnil
      subst hempty
      cases hel
    · rw [if_neg hnil] at hnone
      cases direction with
      | first => exact firstEnabled_none elements hnone el hel
      | last => exact lastEnabled_none elements hnone el hel
      | next =>
        have hw : wrap = true := by
          rcases hwd with hw | hd | hd
          · exact hw
          · cases hd
          · cases hd
        subst hw
        cases hscan : scanLoop elements 1 (elements.length + 1) (currentIndex + 1) with
        | some e2 =>
          rw [hscan] at hnone
          cases hnone
        | none =>
          rw [hscan] at hnone
          exact firstEnabled_none elements hnone el hel
      | previous =>
        have hw : wrap = true := by
          rcases hwd with hw | hd | hd
          · exact hw
          · cases hd
          · cases hd
        subst hw
        cases hscan : scanLoop elements (-1) (elements.length + 1) (currentIndex + (-1)) with
        | some e2 =>
          rw [hscan] at hnone
          cases hnone
        | none =>
          rw [hscan] at hnone
          exact lastEnabled_none elements hnone el hel

/-- Witness for the amended C6 at concrete inputs. -/
theorem claim_C6_witness :
    FocusEl.disabled ⟨2, false⟩ = false
    ∧ (∀ el ∈ ([⟨0, true⟩] : List FocusEl), el.disabled = true) :=
  ⟨(claim_C6_no_disabled_result focusDemoList 0 .next true).1 ⟨2, false⟩ (by decide),
    (claim_C6_no_disabled_result [⟨0, true⟩] 0 .next true).2 (Or.inl rfl) (by decide)⟩

/-! ## AccordionItem (packages/components/src/accordion-item/accordion-item.ts) -/

/-- State of an accordion item: the reactive properties expanded (the
reflected open attribute) and disabled, plus the internal state flag
_collapsible that the container sets. Constructor defaults are
expanded = false, disabled = false, _collapsible = true. -/
structure AItem where
  expanded : Bool
  disabled : Bool
  _collapsible : Bool
deriving Repr, DecidableEq

/-- Initial state of a freshly constructed accordion item. -/
def AItem.initial : AItem :=
  { expanded := false, disabled := false, _collapsible := true }

/-- Embeds the collapsible getter: _collapsible and not disabled. -/
def AItem.collapsible (item : AItem) : Bool :=
  item._collapsible && ! item.disabled

/-- Embeds toggle: no-op unless collapsible, else flip expanded. -/
def AItem.toggle (item : AItem) : AItem :=
  if ! item.collapsible then item
  else { item with expanded := ! item.expanded }

/-- Embeds the open method: no-op unless collapsible and currently
collapsed. Named openItem because open is a reserved word. -/
def AItem.openItem (item : AItem) : AItem :=
  if ! item.collapsible then item
  else if item.expanded then item
  else { item with expanded := true }

/-- Embeds the close method: no-op unless collapsible and currently
expanded. -/
def AItem.closeItem (item : AItem) : AItem :=
  if ! item.collapsible then item
  else if ! item.expanded then item
  else { item with expanded := false }

/-- Embeds disable: no-op when already disabled. -/
def AItem.disable (item : AItem) : AItem :=
  if item.disabled then item else { item with disabled := true }

/-- Embeds enable: no-op when not disabled. -/
def AItem.enable (item : AItem) : AItem :=
  if ! item.disabled then item else { item with disabled := false }

/-- Snapshot carried by the change notification an item queues. -/
structure ChangeEvent where
  openState : Bool
  disabled : Bool
  collapsible : Bool
deriving Repr, DecidableEq

/-- Notifications queued by handleUpdated across one update: the reactive
rendering collaborator invokes updated only when a reactive property
actually changed, and handleUpdated then queues one change event exactly
when expanded or disabled is among the changed properties. -/
def emittedEvents (oldItem newItem : AItem) : List ChangeEvent :=
  if oldItem.expanded != newItem.expanded || oldItem.disabled != newItem.disabled then
    [{ openState := newItem.expanded, disabled := newItem.disabled,
       collapsible := newItem.collapsible }]
  else []

/-- C7: calling open on an already expanded item, or disable on an already
disabled item, leaves the whole state unchanged and queues no change
notification; toggle, open and close are likewise notification-free no-ops
whenever the item is not collapsible. -/
theorem claim_C7_idempotent_operations (item : AItem) :
    (item.expanded = true →
      item.openItem = item ∧ emittedEvents item item.openItem = [])
    ∧ (item.disabled = true →
      item.disable = item ∧ emittedEvents item item.disable = [])
    ∧ (item.collapsible = false →
      item.toggle = item ∧ item.openItem = item ∧ item.closeItem = item
      ∧ emittedEvents item item.toggle = []
      ∧ emittedEvents item item.openItem = []
      ∧ emittedEvents item item.closeItem = []) := by
  rcases item with ⟨e, d, c⟩
  revert e d c
  decide

/-- Witness for C7 at a concrete already-open, already-disabled item. -/
theorem claim_C7_witness :
    AItem.openItem ⟨true, true, true⟩ = ⟨true, true, true⟩
    ∧ AItem.disable ⟨true, true, true⟩ = ⟨true, true, true⟩
    ∧ emittedEvents ⟨true, true, true⟩ (AItem.toggle ⟨true, true, true⟩) = [] :=
  ⟨((claim_C7_idempotent_operations ⟨true, true, true⟩).1 rfl).1,
    ((claim_C7_idempotent_operations ⟨true, true, true⟩).2.1 rfl).1,
    ((claim_C7_idempotent_operations ⟨true, true, true⟩).2.2 rfl).2.2.2.1⟩

/-- C10: a disabled item is never collapsible, whatever the container-set
_collapsible flag; hence toggle, open and close leave expanded unchanged
on a disabled item, and disable itself never changes expanded. -/
theorem claim_C10_disabled_not_collapsible (item : AItem) :
    (item.disabled = true →
      item.collapsible = false
      ∧ item.toggle.expanded = item.expanded
      ∧ item.openItem.expanded = item.expanded
      ∧ item.closeItem.expanded = item.expanded)
    ∧ item.disable.expanded = item.expanded := by
  rcases item with ⟨e, d, c⟩
  revert e d c
  decide

/-- Witness for C10 at a concrete disabled item with _collapsible set. -/
theorem claim_C10_witness :
    AItem.collapsible ⟨true, true, true⟩ = false
    ∧ (AItem.toggle ⟨true, true, true⟩).expanded = (⟨true, true, true⟩ : AItem).expanded :=
  ⟨((claim_C10_disabled_not_collapsible ⟨true, true, true⟩).1 rfl).1,
    ((claim_C10_disabled_not_collapsible ⟨true, true, true⟩).1 rfl).2.1⟩

/-! ## Accordion (packages/components/src/accordion/accordion.ts) -/

/-- Accordion configuration: the collapsible and multiple flags. -/
structure AccordionCfg where
  collapsible : Bool
  multiple : Bool
deriving Repr, DecidableEq

/-- Embeds handleDefaultExpandedItems. The open attribute of an item is
its reflected expanded property. The result is none exactly when the code
would throw: with no items, none open, multiple and collapsible false, it
reads property expanded of the nonexistent first item. -/
def handleDefaultExpandedItems (cfg : AccordionCfg) (items : List AItem) :
    Option (List AItem) :=
  if cfg.multiple then
    some (items.map fun item => { item with _collapsible := true })
  else
    let items1 :=
      if cfg.collapsible then items.map fun item => { item with _collapsible := true }
      else items
    match items1.findIdx? (fun item => item.expanded) with
    | some firstOpen =>
      some (items1.mapIdx fun idx item =>
        if item.expanded then
          if idx = firstOpen then
            if ! cfg.collapsible then { item with _collapsible := false } else item
          else { item with expanded := false }
        else item)
    | none =>
      if ! cfg.collapsible then
        match items1 with
        | [] => none
        | first :: rest => some ({ first with expanded := true, _collapsible := false } :: rest)
      else some items1

/-- Embeds the body of the onChange handler after its guards (namespace,
containment, defaultPrevented) have passed, with the target given by its
index: in non-multiple mode every item is forced to expanded iff it is the
target, and with collapsible false the target becomes non-collapsible
while every other item becomes collapsible. -/
def onChange (cfg : AccordionCfg) (items : List AItem) (target : Nat) : List AItem :=
  if cfg.multiple then items
  else if items.isEmpty then items
  else items.mapIdx fun idx item =>
    let shouldBeOpen : Bool := idx == target
    let item1 :=
      if item.expanded != shouldBeOpen then { item with expanded := shouldBeOpen } else item
    if ! cfg.collapsible then { item1 with _collapsible := ! shouldBeOpen } else item1

/-- Event-name suffix bound by the accordion render template for the slot
listener that should receive item notifications (at-wui-show). -/
def accordionListens : String := "show"

/-- Event-name suffix an accordion item actually emits from handleUpdated
when its expanded or disabled property changed (wui-change). -/
def accordionItemEmits : String := "change"

/-- A user toggle on item i: the trigger click handler calls toggle; the
change notification the item then queues is delivered to the accordion
slot listener only when the emitted event name equals the bound name, and
only then does onChange run. -/
def userToggle (cfg : AccordionCfg) (items : List AItem) (i : Nat) : List AItem :=
  match items[i]? with
  | none => items
  | some item =>
    let item1 := item.toggle
    let items1 := items.set i item1
    if emittedEvents item item1 ≠ [] ∧ accordionItemEmits = accordionListens then
      onChange cfg items1 i
    else items1

/-- Number of expanded items. -/
def countExpanded (items : List AItem) : Nat :=
  (items.filter fun item => item.expanded).length

/-- State of the three-item accordion after the initial derivation with
collapsible and multiple false. -/
def accordionAfterInit : List AItem :=
  [⟨true, false, false⟩, AItem.initial, AItem.initial]

/-- C1: evaluation of the code at the failing input. With multiple and
collapsible false and three initially closed items, the initial derivation
opens item 0 only, but a user toggle on item 1 leaves two items expanded:
the container binds its corrective handler to the event name show while
its items emit the event name change, so the handler never runs and the
claimed exactly-one-expanded invariant is violated. -/
theorem claim_C1_single_expansion_violated :
    accordionItemEmits ≠ accordionListens
    ∧ handleDefaultExpandedItems ⟨false, false⟩ [AItem.initial, AItem.initial, AItem.initial]
        = some accordionAfterInit
    ∧ countExpanded accordionAfterInit = 1
    ∧ countExpanded (userToggle ⟨false, false⟩ accordionAfterInit 1) = 2 := by
  decide

/-- C4 counterexample: after the initial derivation on three closed items
with collapsible and multiple false, item 1 still has collapsible = true,
contrary to the claim that items 1 and 2 have collapsible = false. -/
theorem claim_C4_counterexample :
    handleDefaultExpandedItems ⟨false, false⟩ [AItem.initial, AItem.initial, AItem.initial]
      = some accordionAfterInit
    ∧ accordionAfterInit[1]?.map AItem.collapsible = some true := by
  decide

/-- C4 amended: for a three-item accordion with none marked open and
collapsible and multiple false, the initial derivation gives item 0
expanded = true with collapsible = false, and items 1 and 2
expanded = false with collapsible = true. -/
theorem claim_C4_default_expansion :
    handleDefaultExpandedItems ⟨false, false⟩ [AItem.initial, AItem.initial, AItem.initial]
      = some accordionAfterInit
    ∧ accordionAfterInit.map AItem.expanded = [true, false, false]
    ∧ accordionAfterInit.map AItem.collapsible = [false, true, true] := by
  decide

/-! ## Tree (packages/components/src/tree/tree.ts and tree-item/tree-item.ts)

The selection-related state of a tree item together with the tree shape.
Object identity of elements is modelled by a uid; a tree item is located
by its root-relative path of child indices. -/

/-- Selection-related reactive state of one tree item: the reflected
selected and disabled properties and the internal indeterminate and
selectable states set by the container. -/
structure TItem where
  uid : Nat
  selected : Bool
  indeterminate : Bool
  disabled : Bool
  selectable : Bool
deriving Repr, DecidableEq

/-- A tree item together with the items assigned to its children slot. -/
inductive TTree where
  | node : TItem → List TTree → TTree

/-- Own state of the item at the root of a subtree. -/
def TTree.data : TTree → TItem
  | .node d _ => d

/-- Items assigned to the children slot of the item. -/
def TTree.children : TTree → List TTree
  | .node _ cs => cs

/-- Embeds getChildren with includeDisabled false: the child items that
are not disabled. -/
def enabledChildren (t : TTree) : List TTree :=
  t.children.filter fun c => ! c.data.disabled

/-- Structural induction over the nested tree type, stated once so every
later proof can use it: a tree property and a forest property proved
together. -/
theorem tree_forest_induction (motive : TTree → Prop) (motiveL : List TTree → Prop)
    (hnode : ∀ d cs, motiveL cs → motive (TTree.node d cs))
    (hnil : motiveL [])
    (hcons : ∀ c rest, motive c → motiveL rest → motiveL (c :: rest)) :
    ∀ t, motive t :=
  fun t => @TTree.rec motive motiveL hnode hnil hcons t

/-- Forest companion of tree_forest_induction. -/
theorem forest_induction (motive : TTree → Prop) (motiveL : List TTree → Prop)
    (hnode : ∀ d cs, motiveL cs → motive (TTree.node d cs))
    (hnil : motiveL [])
    (hcons : ∀ c rest, motive c → motiveL rest → motiveL (c :: rest)) :
    ∀ cs, motiveL cs := by
  intro cs
  induction cs with
  | nil => exact hnil
  | cons c rest ih =>
    exact hcons c rest (tree_forest_induction motive motiveL hnode hnil hcons c) ih

mutual
/-- Predicate p holds at every node of the subtree. -/
def treeAll (p : TTree → Bool) : TTree → Bool
  | .node d cs => p (.node d cs) && listAll p cs

/-- Predicate p holds at every node of every subtree of the list. -/
def listAll (p : TTree → Bool) : List TTree → Bool
  | [] => true
  | c :: rest => treeAll p c && listAll p rest
end

/-- Subtree at a root-relative path of child indices. -/
def getSubtreeT : TTree → List Nat → Option TTree
  | t, [] => some t
  | .node _ cs, i :: rest =>
    match cs[i]? with
    | none => none
    | some c => getSubtreeT c rest

/-- Subtree of the forest of root items at a path; the empty path
addresses no item. -/
def getSubtree (forest : List TTree) : List Nat → Option TTree
  | [] => none
  | i :: rest =>
    match forest[i]? with
    | none => none
    | some c => getSubtreeT c rest

/-- State of the item at a path. -/
def getAt (forest : List TTree) (path : List Nat) : Option TItem :=
  (getSubtree forest path).map TTree.data

/-- Sets the reflected selected property of the item at a path inside one
subtree; an invalid path changes nothing. -/
def setSelectedInTree : TTree → List Nat → Bool → TTree
  | t, [], v => .node { t.data with selected := v } t.children
  | .node d cs, i :: rest, v =>
    match cs[i]? with
    | none => .node d cs
    | some c => .node d (cs.set i (setSelectedInTree c rest v))

/-- Sets the selected property of the item at a path in the forest, as an
external consumer mutating the selected attribute would. -/
def setSelectedAt (forest : List TTree) (path : List Nat) (v : Bool) : List TTree :=
  match path with
  | [] => forest
  | i :: rest =>
    match forest[i]? with
    | none => forest
    | some c => forest.set i (setSelectedInTree c rest v)

/-! Tri-state synchronisation (selection multiple, strategy leaf). -/

mutual
/-- Embeds the work syncDescendantCheckboxes does on one enabled child:
when the child is selectable its selected state is forced to v and its
indeterminate state cleared, and the walk recurses into it. -/
def syncDescChild (v : Bool) : TTree → TTree
  | .node d cs =>
    .node (if d.selectable then { d with selected := v, indeterminate := false } else d)
      (syncDescChildren v cs)

/-- Embeds the loop of syncDescendantCheckboxes over getChildren with
includeDisabled false: a disabled child and its whole subtree are left
untouched. -/
def syncDescChildren (v : Bool) : List TTree → List TTree
  | [] => []
  | c :: rest =>
    (if c.data.disabled then c else syncDescChild v c) :: syncDescChildren v rest
end

/-- Embeds syncDescendantCheckboxes applied to the target itself: its own
state is not touched, its children are processed. -/
def syncDescendants (v : Bool) (t : TTree) : TTree :=
  .node t.data (syncDescChildren v t.children)

/-- The if chain of syncParentCheckboxes as a pair: all enabled children
checked and not indeterminate gives (true, false); none checked and none
indeterminate gives (false, false); otherwise (false, true). -/
def triPair (children : List TTree) : Bool × Bool :=
  let totalChecked := children.filter fun c => c.data.selected && ! c.data.indeterminate
  let totalIndeterminate := children.filter fun c => c.data.indeterminate
  if totalChecked.length = children.length then (true, false)
  else if totalChecked.length = 0 ∧ totalIndeterminate.length = 0 then (false, false)
  else (false, true)

/-- Embeds syncParentCheckboxes applied to one item: with at least one
enabled child and the item selectable, its selected and indeterminate
states are recomputed from the enabled children by the tri-state rule. -/
def syncParentData (t : TTree) : TTree :=
  let children := enabledChildren t
  if children.length ≠ 0 then
    if t.data.selectable then
      .node { t.data with
                selected := (triPair children).1
                indeterminate := (triPair children).2 } t.children
    else t
  else t

/-- Embeds syncCheckboxes relative to the subtree holding the target at
the given path. At the target, syncDescendantCheckboxes runs with the
target's current selected value and syncParentCheckboxes recomputes the
target itself; the returned flag drives syncAncestorCheckboxes: each
ancestor recomputes itself and the chain continues above an ancestor only
while that ancestor is selectable. An invalid path changes nothing. -/
def syncUp : TTree → List Nat → TTree × Bool
  | t, [] => (syncParentData (syncDescendants t.data.selected t), true)
  | .node d cs, i :: rest =>
    match cs[i]? with
    | none => (.node d cs, false)
    | some c =>
      let p := syncUp c rest
      let t1 : TTree := .node d (cs.set i p.1)
      if p.2 then (syncParentData t1, d.selectable) else (t1, false)

/-- Embeds syncCheckboxes for a target at a path in the forest of root
items; a root item has no tree-item ancestor, so the upward walk stops at
the forest. -/
def syncCheckboxesF (forest : List TTree) (path : List Nat) : List TTree :=
  match path with
  | [] => forest
  | i :: rest =>
    match forest[i]? with
    | none => forest
    | some c => forest.set i (syncUp c rest).1

/-- One observed selected-attribute mutation in tri-state mode (selection
multiple, strategy leaf, onlyLeafCheckboxes false): the consumer writes
the selected attribute of the item at the path, the mutation observer
reports it, and the handler runs syncCheckboxes on that item with the
observer disconnected. A user click on a selectable enabled item is the
special case v = not selected, re-running the same sync. -/
inductive TriStep : List TTree → List TTree → Prop
  | mutation (forest : List TTree) (path : List Nat) (v : Bool) :
      TriStep forest (syncCheckboxesF (setSelectedAt forest path v) path)

/-- States reachable from f0 by tri-state mutations and clicks. -/
def TriReachable (f0 f : List TTree) : Prop :=
  Relation.ReflTransGen TriStep f0 f

/-- The item at the root of the subtree is selectable. -/
def selNodeP (t : TTree) : Bool := t.data.selectable

/-- The item at the root of the subtree is unselected and not
indeterminate. -/
def clearNodeP (t : TTree) : Bool := ! t.data.selected && ! t.data.indeterminate

/-- Every item of the forest is selectable, as the slot-change handler
sets it in this mode: selection is not none, and neither leaf-strategy
exclusion applies when onlyLeafCheckboxes is false. -/
def selectableEverywhere (forest : List TTree) : Bool :=
  listAll selNodeP forest

/-- Every item is unselected and not indeterminate (markup with no
selected attributes). -/
def clearEverywhere (forest : List TTree) : Bool :=
  listAll clearNodeP forest

/-- Tri-state consistency at one node: with at least one enabled child,
the pair (selected, indeterminate) equals the tri-state function of the
enabled children. -/
def nodeTriOk (t : TTree) : Bool :=
  if (enabledChildren t).length = 0 then true
  else decide ((t.data.selected, t.data.indeterminate) = triPair (enabledChildren t))

/-- Tri-state consistency at every node of the forest. -/
def treeInv (forest : List TTree) : Bool :=
  listAll nodeTriOk forest

/-- The tri-state function of the claim read over all children, enabled
or not. -/
def allChildrenCheckedPlain (t : TTree) : Bool :=
  t.children.all fun c => c.data.selected && ! c.data.indeterminate

/-! Single-selection machinery (selection single). -/

mutual
/-- Embeds the assignment of enforceSingleSelection on one subtree: every
item gets selected := (item is the kept element), identity by uid. -/
def enforceTree (u : Nat) : TTree → TTree
  | .node d cs => .node { d with selected := d.uid == u } (enforceList u cs)

/-- Embeds the loop of enforceSingleSelection over a list of subtrees. -/
def enforceList (u : Nat) : List TTree → List TTree
  | [] => []
  | c :: rest => enforceTree u c :: enforceList u rest
end

/-- Embeds enforceSingleSelection over all tree items of the forest. -/
def enforceSingleSelection (forest : List TTree) (u : Nat) : List TTree :=
  enforceList u forest

mutual
/-- Number of selected items in a subtree. -/
def countSelTree : TTree → Nat
  | .node d cs => (if d.selected then 1 else 0) + countSelList cs

/-- Number of selected items in a list of subtrees. -/
def countSelList : List TTree → Nat
  | [] => 0
  | c :: rest => countSelTree c + countSelList rest
end

/-- Embeds selectedItems.length: how many items of the forest are
selected. -/
def countSelected (forest : List TTree) : Nat :=
  countSelList forest

mutual
/-- Uids of all items of a subtree, in document order. -/
def uidsTree : TTree → List Nat
  | .node d cs => d.uid :: uidsList cs

/-- Uids of all items of a list of subtrees. -/
def uidsList : List TTree → List Nat
  | [] => []
  | c :: rest => uidsTree c ++ uidsList rest
end

/-- Uids of all items of the forest. -/
def allUids (forest : List TTree) : List Nat :=
  uidsList forest

/-- Embeds a user click on the item at the path under selection single:
handleClick ignores clicks on disabled items, selectItem also requires the
item selectable, and then enforceSingleSelection keeps exactly the clicked
item. -/
def treeSingleClick (forest : List TTree) (path : List Nat) : List TTree :=
  match getAt forest path with
  | none => forest
  | some target =>
    if target.disabled then forest
    else if ! target.selectable || target.disabled then forest
    else enforceSingleSelection forest target.uid

/-- Applies a batch of external selected-attribute writes in order. -/
def applySets (forest : List TTree) : List (List Nat × Bool) → List TTree
  | [] => forest
  | (p, v) :: rest => applySets (setSelectedAt forest p v) rest

/-- Embeds one mutation-observer callback under selection single: every
write of the synchronous batch has landed when the callback runs; the
handler takes the first record with attribute selected and, if more than
one item is then selected, enforces single selection keeping that first
record's target, ignoring the remaining records. -/
def treeSingleBatch (forest : List TTree) (sets : List (List Nat × Bool)) : List TTree :=
  match sets with
  | [] => forest
  | (p, _) :: _ =>
    let f1 := applySets forest sets
    match getAt f1 p with
    | none => f1
    | some target =>
      if countSelected f1 > 1 then enforceSingleSelection f1 target.uid else f1

/-- One interaction under selection single: a click, or a synchronous
batch of attribute writes observed by one mutation callback whose first
record has an existing target. -/
inductive SingleSelStep : List TTree → List TTree → Prop
  | click (forest : List TTree) (path : List Nat) :
      SingleSelStep forest (treeSingleClick forest path)
  | batch (forest : List TTree) (p : List Nat) (v : Bool)
      (rest : List (List Nat × Bool)) (target : TItem)
      (htarget : getAt (applySets forest ((p, v) :: rest)) p = some target) :
      SingleSelStep forest (treeSingleBatch forest ((p, v) :: rest))

/-- States reachable from f0 by clicks and observed mutation batches. -/
def SingleSelReachable (f0 f : List TTree) : Prop :=
  Relation.ReflTransGen SingleSelStep f0 f

/-! Facts about uids, counting and enforcement. -/

theorem enforceList_eq_map (u : Nat) (cs : List TTree) :
    enforceList u cs = cs.map (enforceTree u) := by
  induction cs with
  | nil => rfl
  | cons c rest ih => simp only [enforceList, ih, List.map_cons]

theorem countSel_enforce (u : Nat) :
    ∀ cs, countSelList (enforceList u cs) = (uidsList cs).count u := by
  refine forest_induction
    (fun t => countSelTree (enforceTree u t) = (uidsTree t).count u)
    (fun cs => countSelList (enforceList u cs) = (uidsList cs).count u)
    ?_ ?_ ?_
  · intro d cs ih
    simp only [enforceTree, countSelTree, uidsTree, ih, List.count_cons]
    rcases h : (d.uid == u) with _ | _
    · simp [h]
    · simp [h]
      omega
  · rfl
  · intro c rest ihc ihrest
    simp only [enforceList, countSelList, uidsList, ihc, ihrest, List.count_append]

theorem uids_enforce (u : Nat) :
    ∀ cs, uidsList (enforceList u cs) = uidsList cs := by
  refine forest_induction
    (fun t => uidsTree (enforceTree u t) = uidsTree t)
    (fun cs => uidsList (enforceList u cs) = uidsList cs)
    ?_ ?_ ?_
  · intro d cs ih
    simp only [enforceTree, uidsTree, ih]
  · rfl
  · intro c rest ihc ihrest
    simp only [enforceList, uidsList, ihc, ihrest]

theorem uidsList_set (cs : List TTree) :
    ∀ (i : Nat) (c x : TTree), cs[i]? = some c → uidsTree x = uidsTree c →
      uidsList (cs.set i x) = uidsList cs := by
  induction cs with
  | nil => intro i c x h; cases h
  | cons c2 rest ih =>
    intro i c x h hx
    cases i with
    | zero =>
      simp only [List.getElem?_cons_zero, Option.some.injEq] at h
      subst h
      simp only [List.set_cons_zero, uidsList, hx]
    | succ i =>
      simp only [List.getElem?_cons_succ] at h
      simp only [List.set_cons_succ, uidsList, ih i c x h hx]

theorem uids_setSelectedInTree (v : Bool) :
    ∀ (path : List Nat) (t : TTree),
      uidsTree (setSelectedInTree t path v) = uidsTree t := by
  intro path
  induction path with
  | nil =>
    intro t
    cases t with
    | node d cs => rfl
  | cons i rest ih =>
    intro t
    cases t with
    | node d cs =>
      unfold setSelectedInTree
      cases h : cs[i]? with
      | none => rfl
      | some c =>
        simp only [uidsTree]
        rw [uidsList_set cs i c _ h (ih c)]

theorem uids_setSelectedAt (forest : List TTree) (path : List Nat) (v : Bool) :
    uidsList (setSelectedAt forest path v) = uidsList forest := by
  cases path with
  | nil => rfl
  | cons i rest =>
    simp only [setSelectedAt]
    cases h : forest[i]? with
    | none => rfl
    | some c =>
      simp only [h]
      rw [uidsList_set forest i c _ h (uids_setSelectedInTree v rest c)]

theorem uids_applySets (sets : List (List Nat × Bool)) :
    ∀ forest, uidsList (applySets forest sets) = uidsList forest := by
  induction sets with
  | nil => intro forest; rfl
  | cons s rest ih =>
    intro forest
    cases s with
    | mk p v =>
      unfold applySets
      rw [ih, uids_setSelectedAt]

theorem uidsTree_subset (x : Nat) :
    ∀ cs (c : TTree), c ∈ cs → x ∈ uidsTree c → x ∈ uidsList cs := by
  intro cs
  induction cs with
  | nil => intro c h; cases h
  | cons c2 rest ih =>
    intro c h hx
    rcases List.mem_cons.mp h with h | h
    · subst h
      simp only [uidsList, List.mem_append]
      exact Or.inl hx
    · simp only [uidsList, List.mem_append]
      exact Or.inr (ih c h hx)

theorem getSubtreeT_uid_mem :
    ∀ (path : List Nat) (t sub : TTree), getSubtreeT t path = some sub →
      sub.data.uid ∈ uidsTree t := by
  intro path
  induction path with
  | nil =>
    intro t sub h
    cases t with
    | node d cs =>
      simp only [getSubtreeT, Option.some.injEq] at h
      subst h
      simp [uidsTree, TTree.data]
  | cons i rest ih =>
    intro t sub h
    cases t with
    | node d cs =>
      unfold getSubtreeT at h
      cases hg : cs[i]? with
      | none => rw [hg] at h; cases h
      | some c =>
        rw [hg] at h
        have hm := ih c sub h
        simp only [uidsTree, List.mem_cons]
        exact Or.inr (uidsTree_subset _ cs c (List.getElem?_mem hg) hm)

theorem getAt_uid_mem (forest : List TTree) (path : List Nat) (d : TItem)
    (h : getAt forest path = some d) : d.uid ∈ uidsList forest := by
  cases path with
  | nil => cases h
  | cons i rest =>
    simp only [getAt, getSubtree] at h
    cases hg : forest[i]? with
    | none => simp [hg] at h
    | some c =>
      simp only [hg] at h
      cases hs : getSubtreeT c rest with
      | none => simp [hs] at h
      | some sub =>
        simp only [hs] at h
        have hd : sub.data = d := Option.some.inj h
        subst hd
        exact uidsTree_subset _ forest c (List.getElem?_mem hg) (getSubtreeT_uid_mem rest c sub hs)

theorem countSel_enforce_le_one (forest : List TTree) (u : Nat)
    (hnodup : (uidsList forest).Nodup) :
    countSelList (enforceList u forest) ≤ 1 := by
  rw [countSel_enforce]
  exact List.nodup_iff_count_le_one.mp hnodup u

theorem countSel_enforce_eq_one (forest : List TTree) (u : Nat)
    (hnodup : (uidsList forest).Nodup) (hmem : u ∈ uidsList forest) :
    countSelList (enforceList u forest) = 1 := by
  rw [countSel_enforce]
  have h1 := List.nodup_iff_count_le_one.mp hnodup u
  have h2 : 0 < (uidsList forest).count u := List.count_pos_iff.mpr hmem
  omega

theorem getSubtreeT_enforce (u : Nat) :
    ∀ (path : List Nat) (t : TTree),
      getSubtreeT (enforceTree u t) path = (getSubtreeT t path).map (enforceTree u) := by
  intro path
  induction path with
  | nil =>
    intro t
    cases t with
    | node d cs => rfl
  | cons i rest ih =>
    intro t
    cases t with
    | node d cs =>
      show getSubtreeT (.node _ (enforceList u cs)) (i :: rest) = _
      simp only [getSubtreeT]
      rw [enforceList_eq_map, List.getElem?_map]
      cases hg : cs[i]? with
      | none => simp [hg]
      | some c =>
        simp only [hg, Option.map_some]
        exact ih c

theorem getAt_enforce (forest : List TTree) (u : Nat) (path : List Nat) :
    getAt (enforceList u forest) path
      = (getAt forest path).map (fun d => { d with selected := d.uid == u }) := by
  cases path with
  | nil => rfl
  | cons i rest =>
    simp only [getAt, getSubtree]
    rw [enforceList_eq_map, List.getElem?_map]
    cases hg : forest[i]? with
    | none => simp [hg]
    | some c =>
      simp only [hg]
      show Option.map TTree.data (getSubtreeT (enforceTree u c) rest)
          = Option.map (fun d => { d with selected := d.uid == u })
              (Option.map TTree.data (getSubtreeT c rest))
      rw [getSubtreeT_enforce]
      cases hs : getSubtreeT c rest with
      | none => rfl
      | some sub =>
        cases sub with
        | node d cs => rfl

/-- One step preserves the at-most-one-selected bound and the item
identities. -/
theorem singleStep_preserves (f f2 : List TTree)
    (hnodup : (allUids f).Nodup) (hle : countSelected f ≤ 1)
    (hstep : SingleSelStep f f2) :
    countSelected f2 ≤ 1 ∧ allUids f2 = allUids f := by
  cases hstep with
  | click path =>
    simp only [treeSingleClick]
    cases hg : getAt f path with
    | none => exact ⟨hle, rfl⟩
    | some target =>
      simp only [hg]
      by_cases htd : target.disabled = true
      · rw [if_pos htd]
        exact ⟨hle, rfl⟩
      · rw [if_neg htd]
        by_cases hts : (! target.selectable || target.disabled) = true
        · rw [if_pos hts]
          exact ⟨hle, rfl⟩
        · rw [if_neg hts]
          exact ⟨countSel_enforce_le_one f target.uid hnodup, uids_enforce target.uid f⟩
  | batch p v rest target htarget =>
    simp only [treeSingleBatch]
    simp only [htarget]
    by_cases hc : countSelected (applySets f ((p, v) :: rest)) > 1
    · rw [if_pos hc]
      have hnodup1 : (uidsList (applySets f ((p, v) :: rest))).Nodup := by
        rw [uids_applySets]
        exact hnodup
      refine ⟨countSel_enforce_le_one _ target.uid hnodup1, ?_⟩
      show uidsList (enforceList _ _) = _
      rw [uids_enforce, uids_applySets]
      rfl
    · rw [if_neg hc]
      refine ⟨by omega, ?_⟩
      show uidsList (applySets f ((p, v) :: rest)) = _
      rw [uids_applySets]
      rfl

/-- Reachability keeps the bound and the identities. -/
theorem singleSel_reach_invariant (f0 f : List TTree)
    (hnodup : (allUids f0).Nodup) (hstart : countSelected f0 ≤ 1)
    (hreach : SingleSelReachable f0 f) :
    countSelected f ≤ 1 ∧ allUids f = allUids f0 := by
  induction hreach with
  | refl => exact ⟨hstart, rfl⟩
  | @tail b c hr hstep ih =>
    have hnodupb : (allUids b).Nodup := by
      rw [ih.2]
      exact hnodup
    have h2 := singleStep_preserves b c hnodupb ih.1 hstep
    exact ⟨h2.1, h2.2.trans ih.2⟩

/-- Demonstration tree for single selection: two root items with
distinct uids, both enabled and selectable, none selected. -/
def singleDemo : List TTree :=
  [TTree.node ⟨0, false, false, false, true⟩ [],
   TTree.node ⟨1, false, false, false, true⟩ []]

/-- C3 counterexample: two items are marked selected in one synchronous
batch, so the callback observes both records at once; the handler keeps
the target of the FIRST record (path [0]) and forces the most recently
triggering item (path [1]) unselected, refuting the claim that the most
recently triggering item wins. -/
theorem claim_C3_counterexample :
    countSelected (applySets singleDemo [([0], true), ([1], true)]) = 2
    ∧ (getAt (treeSingleBatch singleDemo [([0], true), ([1], true)]) [1]).map TItem.selected
        = some false
    ∧ (getAt (treeSingleBatch singleDemo [([0], true), ([1], true)]) [0]).map TItem.selected
        = some true := by
  decide

/-- C3 amended: under selection single, starting from a tree whose items
have pairwise-distinct identities and at most one selected item, every
sequence of clicks and observed mutation batches leaves at most one item
selected; and when one callback observes more than one selected item, the
item that wins is the target of the first observed mutation record, which
ends as the sole selected item. -/
theorem claim_C3_single_selection :
    (∀ f0 f : List TTree, (allUids f0).Nodup → countSelected f0 ≤ 1 →
        SingleSelReachable f0 f → countSelected f ≤ 1)
    ∧ (∀ (forest : List TTree) (p : List Nat) (v : Bool)
        (rest : List (List Nat × Bool)) (target : TItem),
        (allUids forest).Nodup →
        getAt (applySets forest ((p, v) :: rest)) p = some target →
        countSelected (applySets forest ((p, v) :: rest)) > 1 →
        countSelected (treeSingleBatch forest ((p, v) :: rest)) = 1
        ∧ (getAt (treeSingleBatch forest ((p, v) :: rest)) p).map TItem.selected
            = some true) := by
  constructor
  · intro f0 f hnodup hstart hreach
    exact (singleSel_reach_invariant f0 f hnodup hstart hreach).1
  · intro forest p v rest target hnodup htarget hcount
    have hnodup1 : (uidsList (applySets forest ((p, v) :: rest))).Nodup := by
      rw [uids_applySets]
      exact hnodup
    have hmem : target.uid ∈ uidsList (applySets forest ((p, v) :: rest)) :=
      getAt_uid_mem _ p target htarget
    constructor
    · simp only [treeSingleBatch]
      simp only [htarget]
      rw [if_pos hcount]
      exact countSel_enforce_eq_one _ target.uid hnodup1 hmem
    · simp only [treeSingleBatch]
      simp only [htarget]
      rw [if_pos hcount]
      show (getAt (enforceList target.uid _) p).map TItem.selected = some true
      rw [getAt_enforce, htarget]
      simp

/-- Witness for the amended C3 at concrete inputs. -/
theorem claim_C3_witness :
    countSelected (treeSingleClick singleDemo [0]) ≤ 1
    ∧ countSelected (treeSingleBatch singleDemo [([0], true), ([1], true)]) = 1 :=
  ⟨claim_C3_single_selection.1 singleDemo (treeSingleClick singleDemo [0]) (by decide) (by decide)
      (Relation.ReflTransGen.tail Relation.ReflTransGen.refl
        (SingleSelStep.click singleDemo [0])),
    (claim_C3_single_selection.2 singleDemo [0] true [([1], true)]
      ⟨0, true, false, false, true⟩ (by decide) (by decide) (by decide)).1⟩

/-! Utilities over treeAll and listAll. -/

theorem treeAll_node (p : TTree → Bool) (d : TItem) (cs : List TTree)
    (h : treeAll p (.node d cs) = true) :
    p (.node d cs) = true ∧ listAll p cs = true := by
  unfold treeAll at h
  rw [Bool.and_eq_true] at h
  exact h

theorem treeAll_root (p : TTree → Bool) (t : TTree)
    (h : treeAll p t = true) : p t = true := by
  cases t with
  | node d cs => exact (treeAll_node p d cs h).1

theorem treeAll_children (p : TTree → Bool) (t : TTree)
    (h : treeAll p t = true) : listAll p t.children = true := by
  cases t with
  | node d cs => exact (treeAll_node p d cs h).2

theorem treeAll_intro (p : TTree → Bool) (d : TItem) (cs : List TTree)
    (h1 : p (.node d cs) = true) (h2 : listAll p cs = true) :
    treeAll p (.node d cs) = true := by
  unfold treeAll
  rw [Bool.and_eq_true]
  exact ⟨h1, h2⟩

theorem listAll_cons (p : TTree → Bool) (c : TTree) (rest : List TTree)
    (h : listAll p (c :: rest) = true) :
    treeAll p c = true ∧ listAll p rest = true := by
  unfold listAll at h
  rw [Bool.and_eq_true] at h
  exact h

theorem listAll_intro (p : TTree → Bool) (c : TTree) (rest : List TTree)
    (h1 : treeAll p c = true) (h2 : listAll p rest = true) :
    listAll p (c :: rest) = true := by
  unfold listAll
  rw [Bool.and_eq_true]
  exact ⟨h1, h2⟩

theorem listAll_mem (p : TTree → Bool) :
    ∀ (cs : List TTree) (c : TTree), listAll p cs = true → c ∈ cs → treeAll p c = true := by
  intro cs
  induction cs with
  | nil => intro c h hc; cases hc
  | cons c2 rest ih =>
    intro c h hc
    rcases listAll_cons p c2 rest h with ⟨h1, h2⟩
    rcases List.mem_cons.mp hc with hc | hc
    · subst hc; exact h1
    · exact ih c h2 hc

theorem listAll_set (p : TTree → Bool) :
    ∀ (cs : List TTree) (i : Nat) (x : TTree),
      listAll p cs = true → treeAll p x = true → listAll p (cs.set i x) = true := by
  intro cs
  induction cs with
  | nil => intro i x h hx; cases i <;> exact h
  | cons c rest ih =>
    intro i x h hx
    rcases listAll_cons p c rest h with ⟨h1, h2⟩
    cases i with
    | zero =>
      rw [List.set_cons_zero]
      exact listAll_intro p x rest hx h2
    | succ i =>
      rw [List.set_cons_succ]
      exact listAll_intro p c (rest.set i x) h1 (ih i x h2 hx)

theorem list_set_same :
    ∀ (cs : List TTree) (i : Nat) (c : TTree), cs[i]? = some c → cs.set i c = cs := by
  intro cs
  induction cs with
  | nil => intro i c h; cases h
  | cons c2 rest ih =>
    intro i c h
    cases i with
    | zero =>
      simp only [List.getElem?_cons_zero, Option.some.injEq] at h
      subst h
      rw [List.set_cons_zero]
    | succ i =>
      simp only [List.getElem?_cons_succ] at h
      rw [List.set_cons_succ, ih i c h]

/-! Facts about syncDescendantCheckboxes. -/

theorem syncDescChild_disabled (v : Bool) (t : TTree) :
    (syncDescChild v t).data.disabled = t.data.disabled := by
  cases t with
  | node d cs =>
    show (if d.selectable then { d with selected := v, indeterminate := false } else d).disabled
        = d.disabled
    split <;> rfl

theorem syncDescChild_data_of_selectable (v : Bool) (t : TTree)
    (hsel : t.data.selectable = true) :
    (syncDescChild v t).data.selected = v ∧ (syncDescChild v t).data.indeterminate = false := by
  cases t with
  | node d cs =>
    have hd : d.selectable = true := hsel
    show ((if d.selectable then { d with selected := v, indeterminate := false } else d).selected = v)
      ∧ ((if d.selectable then { d with selected := v, indeterminate := false } else d).indeterminate
          = false)
    rw [if_pos hd]
    exact ⟨rfl, rfl⟩

theorem syncDescChild_selP (v : Bool) :
    ∀ t, treeAll selNodeP t = true → treeAll selNodeP (syncDescChild v t) = true := by
  refine tree_forest_induction
    (fun t => treeAll selNodeP t = true → treeAll selNodeP (syncDescChild v t) = true)
    (fun cs => listAll selNodeP cs = true → listAll selNodeP (syncDescChildren v cs) = true)
    ?_ ?_ ?_
  · intro d cs ih h
    rcases treeAll_node selNodeP d cs h with ⟨h1, h2⟩
    show treeAll selNodeP (.node (if d.selectable then
      { d with selected := v, indeterminate := false } else d) (syncDescChildren v cs)) = true
    apply treeAll_intro
    · show (if d.selectable then { d with selected := v, indeterminate := false } else d).selectable
          = true
      split
      · exact h1
      · exact h1
    · exact ih h2
  · intro h
    exact h
  · intro c rest ihc ihrest h
    rcases listAll_cons selNodeP c rest h with ⟨h1, h2⟩
    show listAll selNodeP ((if c.data.disabled then c else syncDescChild v c)
        :: syncDescChildren v rest) = true
    apply listAll_intro
    · split
      · exact h1
      · exact ihc h1
    · exact ihrest h2

theorem syncDescChildren_selP (v : Bool) :
    ∀ cs, listAll selNodeP cs = true → listAll selNodeP (syncDescChildren v cs) = true := by
  refine forest_induction
    (fun t => treeAll selNodeP t = true → treeAll selNodeP (syncDescChild v t) = true)
    (fun cs => listAll selNodeP cs = true → listAll selNodeP (syncDescChildren v cs) = true)
    ?_ ?_ ?_
  · intro d cs ih h
    exact syncDescChild_selP v (.node d cs) h
  · intro h
    exact h
  · intro c rest ihc ihrest h
    rcases listAll_cons selNodeP c rest h with ⟨h1, h2⟩
    show listAll selNodeP ((if c.data.disabled then c else syncDescChild v c)
        :: syncDescChildren v rest) = true
    apply listAll_intro
    · split
      · exact h1
      · exact syncDescChild_selP v c h1
    · exact ihrest h2

theorem syncDescChildren_mem (v : Bool) :
    ∀ (cs : List TTree) (c2 : TTree), c2 ∈ syncDescChildren v cs →
      (∃ c ∈ cs, c.data.disabled = true ∧ c2 = c)
      ∨ (∃ c ∈ cs, c.data.disabled = false ∧ c2 = syncDescChild v c) := by
  intro cs
  induction cs with
  | nil => intro c2 h; cases h
  | cons c rest ih =>
    intro c2 h
    simp only [syncDescChildren] at h
    rcases List.mem_cons.mp h with h | h
    · by_cases hd : c.data.disabled = true
      · rw [if_pos hd] at h
        exact Or.inl ⟨c, List.mem_cons_self c rest, hd, h⟩
      · rw [if_neg hd] at h
        exact Or.inr ⟨c, List.mem_cons_self c rest, by simpa using hd, h⟩
    · rcases ih c2 h with ⟨c3, hc3, hd3, he3⟩ | ⟨c3, hc3, hd3, he3⟩
      · exact Or.inl ⟨c3, List.mem_cons_of_mem c hc3, hd3, he3⟩
      · exact Or.inr ⟨c3, List.mem_cons_of_mem c hc3, hd3, he3⟩

theorem syncDescChildren_enabled_uniform (v : Bool) (cs : List TTree)
    (hsel : listAll selNodeP cs = true) :
    ∀ c2 ∈ syncDescChildren v cs, c2.data.disabled = false →
      c2.data.selected = v ∧ c2.data.indeterminate = false := by
  intro c2 hmem hdis
  rcases syncDescChildren_mem v cs c2 hmem with ⟨c, hc, hcd, he⟩ | ⟨c, hc, hcd, he⟩
  · subst he
    rw [hcd] at hdis
    cases hdis
  · subst he
    have hsel2 : c.data.selectable = true := treeAll_root selNodeP c (listAll_mem selNodeP cs c hsel hc)
    exact syncDescChild_data_of_selectable v c hsel2

/-! Facts about the tri-state pair. -/

theorem triPair_uniform (v : Bool) (cs : List TTree) (hne : cs.length ≠ 0)
    (h : ∀ c ∈ cs, c.data.selected = v ∧ c.data.indeterminate = false) :
    triPair cs = (v, false) := by
  cases v with
  | true =>
    have hfil : cs.filter (fun c => c.data.selected && ! c.data.indeterminate) = cs :=
      List.filter_eq_self.mpr (by
        intro a ha
        simp [(h a ha).1, (h a ha).2])
    unfold triPair
    rw [hfil, if_pos rfl]
  | false =>
    have hfil1 : cs.filter (fun c => c.data.selected && ! c.data.indeterminate) = [] :=
      List.filter_eq_nil_iff.mpr (by
        intro a ha
        simp [(h a ha).1])
    have hfil2 : cs.filter (fun c => c.data.indeterminate) = [] :=
      List.filter_eq_nil_iff.mpr (by
        intro a ha
        simp [(h a ha).2])
    unfold triPair
    rw [hfil1, hfil2]
    rw [if_neg (by simp only [List.length_nil]; omega)]
    rw [if_pos ⟨rfl, rfl⟩]

theorem nodeTriOk_of_empty (t : TTree) (h : (enabledChildren t).length = 0) :
    nodeTriOk t = true := by
  unfold nodeTriOk
  rw [if_pos h]

theorem nodeTriOk_of_pair (t : TTree)
    (h : (t.data.selected, t.data.indeterminate) = triPair (enabledChildren t)) :
    nodeTriOk t = true := by
  unfold nodeTriOk
  by_cases hne : (enabledChildren t).length = 0
  · rw [if_pos hne]
  · rw [if_neg hne]
    exact decide_eq_true h

theorem clearNodeP_parts (t : TTree) (h : clearNodeP t = true) :
    t.data.selected = false ∧ t.data.indeterminate = false := by
  unfold clearNodeP at h
  rw [Bool.and_eq_true] at h
  exact ⟨by simpa using h.1, by simpa using h.2⟩

/-- After syncDescendantCheckboxes has run below a selectable node whose
whole subtree is selectable, every node of the processed subtree satisfies
the tri-state consistency. -/
theorem syncDesc_triOk (v : Bool) :
    ∀ cs, listAll selNodeP cs = true → listAll nodeTriOk cs = true →
      listAll nodeTriOk (syncDescChildren v cs) = true := by
  refine forest_induction
    (fun t => treeAll selNodeP t = true → treeAll nodeTriOk t = true →
      treeAll nodeTriOk (syncDescChild v t) = true)
    (fun cs => listAll selNodeP cs = true → listAll nodeTriOk cs = true →
      listAll nodeTriOk (syncDescChildren v cs) = true)
    ?_ ?_ ?_
  · intro d cs ih hsel htri
    rcases treeAll_node selNodeP d cs hsel with ⟨hsel1, hsel2⟩
    rcases treeAll_node nodeTriOk d cs htri with ⟨_, htri2⟩
    have hd : d.selectable = true := hsel1
    show treeAll nodeTriOk (.node
      (if d.selectable then { d with selected := v, indeterminate := false } else d)
      (syncDescChildren v cs)) = true
    rw [if_pos hd]
    apply treeAll_intro
    · by_cases hne : (enabledChildren (TTree.node { d with selected := v, indeterminate := false }
        (syncDescChildren v cs))).length = 0
      · exact nodeTriOk_of_empty _ hne
      · apply nodeTriOk_of_pair
        have huni : ∀ c2 ∈ enabledChildren (TTree.node
            { d with selected := v, indeterminate := false } (syncDescChildren v cs)),
            c2.data.selected = v ∧ c2.data.indeterminate = false := by
          intro c2 hc2
          have hparts := List.mem_filter.mp hc2
          exact syncDescChildren_enabled_uniform v cs hsel2 c2 hparts.1 (by simpa using hparts.2)
        rw [triPair_uniform v _ hne huni]
        rfl
    · exact ih hsel2 htri2
  · intro _ _
    rfl
  · intro c rest ihc ihrest hsel htri
    rcases listAll_cons selNodeP c rest hsel with ⟨hs1, hs2⟩
    rcases listAll_cons nodeTriOk c rest htri with ⟨ht1, ht2⟩
    show listAll nodeTriOk ((if c.data.disabled then c else syncDescChild v c)
        :: syncDescChildren v rest) = true
    apply listAll_intro
    · split
      · exact ht1
      · exact ihc hs1 ht1
    · exact ihrest hs2 ht2

/-! Facts about syncParentCheckboxes. -/

theorem syncParentData_children (t : TTree) : (syncParentData t).children = t.children := by
  simp only [syncParentData]
  split
  · split
    · rfl
    · rfl
  · rfl

theorem syncParentData_selP (t : TTree) (h : treeAll selNodeP t = true) :
    treeAll selNodeP (syncParentData t) = true := by
  cases t with
  | node d cs =>
    rcases treeAll_node selNodeP d cs h with ⟨h1, h2⟩
    simp only [syncParentData]
    split
    · split
      · exact treeAll_intro _ _ _ h1 h2
      · exact h
    · exact h

theorem syncParentData_triOk (t : TTree)
    (hsel : t.data.selectable = true)
    (hch : listAll nodeTriOk t.children = true) :
    treeAll nodeTriOk (syncParentData t) = true := by
  cases t with
  | node d cs =>
    simp only [syncParentData]
    by_cases hne : (enabledChildren (TTree.node d cs)).length ≠ 0
    · rw [if_pos hne, if_pos hsel]
      apply treeAll_intro
      · apply nodeTriOk_of_pair
        exact Prod.mk.eta
      · exact hch
    · rw [if_neg hne]
      apply treeAll_intro
      · exact nodeTriOk_of_empty _ (by omega)
      · exact hch

/-- Running syncDescendantCheckboxes and then syncParentCheckboxes on a
node of an all-selectable subtree makes the whole subtree tri-state
consistent, whatever the node's own state was. -/
theorem syncDescendants_then_parent_ok (v : Bool) (t : TTree)
    (hsel : treeAll selNodeP t = true) (hch : listAll nodeTriOk t.children = true) :
    treeAll nodeTriOk (syncParentData (syncDescendants v t)) = true := by
  cases t with
  | node d cs =>
    rcases treeAll_node selNodeP d cs hsel with ⟨h1, h2⟩
    show treeAll nodeTriOk (syncParentData (.node d (syncDescChildren v cs))) = true
    apply syncParentData_triOk
    · exact h1
    · exact syncDesc_triOk v cs h2 hch

theorem setSelectedInTree_selP (v : Bool) :
    ∀ (path : List Nat) (t : TTree), treeAll selNodeP t = true →
      treeAll selNodeP (setSelectedInTree t path v) = true := by
  intro path
  induction path with
  | nil =>
    intro t h
    cases t with
    | node d cs =>
      rcases treeAll_node selNodeP d cs h with ⟨h1, h2⟩
      exact treeAll_intro _ _ _ h1 h2
  | cons i rest ih =>
    intro t h
    cases t with
    | node d cs =>
      rcases treeAll_node selNodeP d cs h with ⟨h1, h2⟩
      simp only [setSelectedInTree]
      cases hg : cs[i]? with
      | none => exact h
      | some c =>
        simp only [hg]
        have h1b : selNodeP (TTree.node d (cs.set i (setSelectedInTree c rest v))) = true := h1
        exact treeAll_intro _ _ _ h1b
          (listAll_set _ cs i _ h2 (ih c (listAll_mem _ cs c h2 (List.getElem?_mem hg))))

theorem syncUp_selP :
    ∀ (path : List Nat) (t : TTree), treeAll selNodeP t = true →
      treeAll selNodeP (syncUp t path).1 = true := by
  intro path
  induction path with
  | nil =>
    intro t h
    cases t with
    | node d cs =>
      rcases treeAll_node selNodeP d cs h with ⟨h1, h2⟩
      show treeAll selNodeP (syncParentData (.node d (syncDescChildren
        (TTree.data (.node d cs)).selected cs))) = true
      apply syncParentData_selP
      have h1b : selNodeP (TTree.node d (syncDescChildren
        (TTree.data (.node d cs)).selected cs)) = true := h1
      exact treeAll_intro _ _ _ h1b (syncDescChildren_selP _ cs h2)
  | cons i rest ih =>
    intro t h
    cases t with
    | node d cs =>
      rcases treeAll_node selNodeP d cs h with ⟨h1, h2⟩
      simp only [syncUp]
      cases hg : cs[i]? with
      | none => exact h
      | some c =>
        simp only [hg]
        have hp := ih c (listAll_mem _ cs c h2 (List.getElem?_mem hg))
        have h1b : selNodeP (TTree.node d (cs.set i (syncUp c rest).1)) = true := h1
        by_cases hp2 : (syncUp c rest).2 = true
        · rw [if_pos hp2]
          apply syncParentData_selP
          exact treeAll_intro _ _ _ h1b (listAll_set _ cs i _ h2 hp)
        · rw [if_neg hp2]
          exact treeAll_intro _ _ _ h1b (listAll_set _ cs i _ h2 hp)

/-- The heart of the invariant proof: setting the selected state of the
item at a path and running syncCheckboxes on it restores tri-state
consistency everywhere in the subtree, assuming every item selectable;
and when the returned flag is false nothing changed at all. -/
theorem syncUp_setSelected_ok (v : Bool) :
    ∀ (path : List Nat) (t : TTree),
      treeAll selNodeP t = true → treeAll nodeTriOk t = true →
      treeAll nodeTriOk (syncUp (setSelectedInTree t path v) path).1 = true
      ∧ ((syncUp (setSelectedInTree t path v) path).2 = false →
          (syncUp (setSelectedInTree t path v) path).1 = t) := by
  intro path
  induction path with
  | nil =>
    intro t hsel htri
    cases t with
    | node d cs =>
      rcases treeAll_node selNodeP d cs hsel with ⟨h1, h2⟩
      rcases treeAll_node nodeTriOk d cs htri with ⟨_, ht2⟩
      constructor
      · show treeAll nodeTriOk (syncParentData (syncDescendants _
          (TTree.node { d with selected := v } cs))) = true
        apply syncDescendants_then_parent_ok
        · exact treeAll_intro _ _ _ h1 h2
        · exact ht2
      · intro hflag
        exact Bool.noConfusion hflag
  | cons i rest ih =>
    intro t hsel htri
    cases t with
    | node d cs =>
      rcases treeAll_node selNodeP d cs hsel with ⟨hs1, hs2⟩
      rcases treeAll_node nodeTriOk d cs htri with ⟨ht1, ht2⟩
      cases hg : cs[i]? with
      | none =>
        have hset : setSelectedInTree (.node d cs) (i :: rest) v = .node d cs := by
          simp only [setSelectedInTree, hg]
        have hsync : syncUp (.node d cs) (i :: rest) = (.node d cs, false) := by
          simp only [syncUp, hg]
        rw [hset, hsync]
        exact ⟨htri, fun _ => rfl⟩
      | some c =>
        have hlen : i < cs.length := by
          by_contra hcon
          rw [List.getElem?_eq_none (by omega)] at hg
          cases hg
        have hset : setSelectedInTree (.node d cs) (i :: rest) v
            = .node d (cs.set i (setSelectedInTree c rest v)) := by
          simp only [setSelectedInTree, hg]
        have hget2 : (cs.set i (setSelectedInTree c rest v))[i]?
            = some (setSelectedInTree c rest v) :=
          List.getElem?_set_self hlen
        have hc := listAll_mem _ cs c hs2 (List.getElem?_mem hg)
        have hctri := listAll_mem _ cs c ht2 (List.getElem?_mem hg)
        have hih := ih c hc hctri
        rw [hset]
        by_cases hp2 : (syncUp (setSelectedInTree c rest v) rest).2 = true
        · have hsync : syncUp (.node d (cs.set i (setSelectedInTree c rest v))) (i :: rest)
              = (syncParentData (.node d
                  (cs.set i (syncUp (setSelectedInTree c rest v) rest).1)), d.selectable) := by
            simp only [syncUp, hget2]
            rw [if_pos hp2, List.set_set]
          rw [hsync]
          constructor
          · apply syncParentData_triOk
            · exact hs1
            · exact listAll_set _ cs i _ ht2 hih.1
          · intro hflag
            have hd : d.selectable = true := hs1
            rw [hd] at hflag
            exact Bool.noConfusion hflag
        · have hp2f : (syncUp (setSelectedInTree c rest v) rest).2 = false := by
            simpa using hp2
          have hnoop := hih.2 hp2f
          have hsync : syncUp (.node d (cs.set i (setSelectedInTree c rest v))) (i :: rest)
              = (.node d ((cs.set i (setSelectedInTree c rest v)).set i
                  (syncUp (setSelectedInTree c rest v) rest).1), false) := by
            simp only [syncUp, hget2]
            rw [if_neg hp2]
          rw [hsync, List.set_set, hnoop, list_set_same cs i c hg]
          exact ⟨htri, fun _ => rfl⟩

/-- One tri-state step preserves the invariant and selectability. -/
theorem triStep_preserves (f f2 : List TTree)
    (hsel : selectableEverywhere f = true) (hinv : treeInv f = true)
    (hstep : TriStep f f2) :
    treeInv f2 = true ∧ selectableEverywhere f2 = true := by
  cases hstep with
  | mutation path v =>
    cases path with
    | nil => exact ⟨hinv, hsel⟩
    | cons i rest =>
      simp only [setSelectedAt, syncCheckboxesF]
      cases hg : f[i]? with
      | none => simp only [hg]; exact ⟨hinv, hsel⟩
      | some c =>
        simp only [hg]
        have hlen : i < f.length := by
          by_contra hcon
          rw [List.getElem?_eq_none (by omega)] at hg
          cases hg
        have hget2 : (f.set i (setSelectedInTree c rest v))[i]?
            = some (setSelectedInTree c rest v) :=
          List.getElem?_set_self hlen
        simp only [hget2]
        rw [List.set_set]
        have hc : treeAll selNodeP c = true := listAll_mem _ f c hsel (List.getElem?_mem hg)
        have hctri : treeAll nodeTriOk c = true := listAll_mem _ f c hinv (List.getElem?_mem hg)
        have hmain := syncUp_setSelected_ok v rest c hc hctri
        constructor
        · exact listAll_set _ f i _ hinv hmain.1
        · exact listAll_set _ f i _ hsel
            (syncUp_selP rest _ (setSelectedInTree_selP v rest c hc))

/-- A tree whose markup carries no selected attribute is tri-state
consistent. -/
theorem clear_treeInv : ∀ f, clearEverywhere f = true → treeInv f = true := by
  refine forest_induction
    (fun t => treeAll clearNodeP t = true → treeAll nodeTriOk t = true)
    (fun cs => listAll clearNodeP cs = true → listAll nodeTriOk cs = true)
    ?_ ?_ ?_
  · intro d cs ih h
    rcases treeAll_node clearNodeP d cs h with ⟨h1, h2⟩
    apply treeAll_intro
    · by_cases hne : (enabledChildren (TTree.node d cs)).length = 0
      · exact nodeTriOk_of_empty _ hne
      · apply nodeTriOk_of_pair
        have huni : ∀ c2 ∈ enabledChildren (TTree.node d cs),
            c2.data.selected = false ∧ c2.data.indeterminate = false := by
          intro c2 hc2
          have hmem := (List.mem_filter.mp hc2).1
          exact clearNodeP_parts c2 (treeAll_root clearNodeP c2 (listAll_mem clearNodeP cs c2 h2 hmem))
        rw [triPair_uniform false _ hne huni]
        rcases clearNodeP_parts (.node d cs) h1 with ⟨hsel0, hind0⟩
        rw [show (TTree.node d cs).data.selected = d.selected from rfl] at hsel0
        rw [show (TTree.node d cs).data.indeterminate = d.indeterminate from rfl] at hind0
        show (d.selected, d.indeterminate) = (false, false)
        rw [hsel0, hind0]
    · exact ih h2
  · intro _
    rfl
  · intro c rest ihc ihrest h
    rcases listAll_cons clearNodeP c rest h with ⟨h1, h2⟩
    exact listAll_intro _ _ _ (ihc h1) (ihrest h2)

/-- Demonstration tree for the tri-state claims: one selectable root
with one selectable enabled child, nothing selected. -/
def triDemo : List TTree :=
  [TTree.node ⟨0, false, false, false, true⟩
    [TTree.node ⟨1, false, false, false, true⟩ []]]

/-- Demonstration tree with a disabled child: root 0 with enabled child 1
and disabled child 2, nothing selected. -/
def triDemoDisabled : List TTree :=
  [TTree.node ⟨0, false, false, false, true⟩
    [TTree.node ⟨1, false, false, false, true⟩ [],
     TTree.node ⟨2, false, false, true, true⟩ []]]

/-- C2 counterexample: in the reachable state after the enabled child B
(path [0, 0]) is marked selected, the composite root A is selected even
though its other child C, which is disabled, is not selected: the pair is
a function of the NON-DISABLED children only, not of all children as the
claim states. -/
theorem claim_C2_counterexample :
    TriReachable triDemoDisabled
      (syncCheckboxesF (setSelectedAt triDemoDisabled [0, 0] true) [0, 0])
    ∧ (getSubtree (syncCheckboxesF (setSelectedAt triDemoDisabled [0, 0] true) [0, 0]) [0]).map
        (fun t => t.data.selected) = some true
    ∧ (getSubtree (syncCheckboxesF (setSelectedAt triDemoDisabled [0, 0] true) [0, 0]) [0]).map
        allChildrenCheckedPlain = some false := by
  refine ⟨Relation.ReflTransGen.tail Relation.ReflTransGen.refl
    (TriStep.mutation triDemoDisabled [0, 0] true), by decide, by decide⟩

/-- C2 amended: under selection multiple, strategy leaf and
onlyLeafCheckboxes false (so the slot-change handler makes every item
selectable), starting from a tree with no selected markup, after any
sequence of observed selected-attribute mutations and clicks every
composite node with at least one non-disabled child has its
(selected, indeterminate) pair equal to the tri-state function of its
non-disabled children: all of them checked and not indeterminate gives
(true, false), none checked and none indeterminate gives (false, false),
and otherwise (false, true). -/
theorem claim_C2_tristate_invariant (f0 f : List TTree)
    (hsel : selectableEverywhere f0 = true)
    (hclear : clearEverywhere f0 = true)
    (hreach : TriReachable f0 f) :
    treeInv f = true := by
  have main : treeInv f = true ∧ selectableEverywhere f = true := by
    induction hreach with
    | refl => exact ⟨clear_treeInv f0 hclear, hsel⟩
    | @tail b c hr hstep ih => exact triStep_preserves b c ih.2 ih.1 hstep
  exact main.1

/-- Witness for the amended C2 at a concrete tree and one concrete
mutation. -/
theorem claim_C2_witness :
    treeInv (syncCheckboxesF (setSelectedAt triDemo [0, 0] true) [0, 0]) = true :=
  claim_C2_tristate_invariant triDemo
    (syncCheckboxesF (setSelectedAt triDemo [0, 0] true) [0, 0])
    (by decide) (by decide)
    (Relation.ReflTransGen.tail Relation.ReflTransGen.refl
      (TriStep.mutation triDemo [0, 0] true))

/-! ## Event-notification primitive
(packages/components/src/utils/event.ts and core/base-element.ts) -/

/-- Outcome of handing an event to the environment for dispatch: the
listeners ran and left the defaultPrevented flag in some state, or a
listener (or the dispatch call itself) threw. -/
inductive DispatchOutcome where
  | ok (defaultPrevented : Bool)
  | threw
deriving Repr, DecidableEq

/-- Embeds emitEvent of utils/event.ts: dispatches the enriched event and
returns not defaultPrevented; it has no handler of its own, so an
exception propagates to its caller. -/
def emitEventUtil (outcome : DispatchOutcome) : Except Unit Bool :=
  match outcome with
  | .ok prevented => .ok (! prevented)
  | .threw => .error ()

/-- Embeds BaseElement.emitEvent: the utility call sits in a try block; a
caught error is logged with console.error and reported as false. The
second component collects the log output. -/
def baseEmitEvent (outcome : DispatchOutcome) : Bool × List String :=
  match emitEventUtil outcome with
  | .ok result => (result, [])
  | .error _ => (false, ["Failed to emit event"])

/-- C9: the notification primitive returns true exactly when the event
was dispatched and its default was not prevented; an exception during
emission is caught at the boundary, logged, and reported as false instead
of propagating. -/
theorem claim_C9_notification_result (outcome : DispatchOutcome) :
    ((baseEmitEvent outcome).1 = true ↔ outcome = .ok false)
    ∧ (outcome = .threw →
        (baseEmitEvent outcome).1 = false ∧ (baseEmitEvent outcome).2 ≠ []) := by
  cases outcome with
  | ok prevented =>
    cases prevented <;> constructor <;> simp [baseEmitEvent, emitEventUtil]
  | threw =>
    constructor <;> simp [baseEmitEvent, emitEventUtil]

/-- Witness for C9 at the throwing outcome. -/
theorem claim_C9_witness :
    (baseEmitEvent .threw).1 = false ∧ (baseEmitEvent .threw).2 ≠ [] :=
  (claim_C9_notification_result .threw).2 rfl

/-! ## Dialog stack (packages/components/src/dialog/dialog.ts)

Dialogs are modelled by their index into a fixed list; the module-level
openDialogs array holds indices in opening order, last = topmost. DOM
elements outside the dialogs are numbers; each dialog has the fixed list
of elements its getElementsToInert computes (the DOM shape is static),
and the list it has currently made inert. Show and hide are collapsed to
their settled outcome: the transition classes and waits cancel out and
the isTransitioning flag returns to false once the transition ends. -/

/-- State of one dialog instance. openProp is the reflected open
property (open is a reserved word). -/
structure DialogState where
  openProp : Bool
  dismissable : Bool
  isTransitioning : Bool
  inertElements : List Nat
  toInert : List Nat
deriving Repr, DecidableEq

/-- The whole page: the dialog instances, the module-level openDialogs
stack of indices, and which outside elements currently carry inert. -/
structure DialogWorld where
  dialogs : List DialogState
  openDialogs : List Nat
  inert : List Nat
deriving Repr, DecidableEq

/-- removeAttribute inert on each element of els. -/
def clearInert (inert : List Nat) (els : List Nat) : List Nat :=
  inert.filter fun e => ! els.contains e

/-- setAttribute inert on each element of els. -/
def addInert (inert : List Nat) (els : List Nat) : List Nat :=
  inert ++ els.filter fun e => ! inert.contains e

/-- The forEach of handleShow over openDialogs: every open dialog removes
the inert attribute from its stored elements and empties the stored
list. -/
def clearDialogInerts (dialogs : List DialogState) (stack : List Nat) (inert : List Nat) :
    List DialogState × List Nat :=
  match stack with
  | [] => (dialogs, inert)
  | j :: rest =>
    match dialogs[j]? with
    | none => clearDialogInerts dialogs rest inert
    | some dj =>
      clearDialogInerts (dialogs.set j { dj with inertElements := [] }) rest
        (clearInert inert dj.inertElements)

/-- Embeds show() and the settled outcome of handleShow: no-op when
already open; when not transitioning, the dialog marks itself open,
pushes itself onto openDialogs, all previous inerts are removed, and the
elements of its own getElementsToInert become inert. -/
def showDialog (w : DialogWorld) (i : Nat) : DialogWorld :=
  match w.dialogs[i]? with
  | none => w
  | some d =>
    if d.openProp then w
    else if d.isTransitioning then
      { w with dialogs := w.dialogs.set i { d with openProp := true } }
    else
      let stack1 := w.openDialogs ++ [i]
      let cleared := clearDialogInerts (w.dialogs.set i { d with openProp := true }) stack1 w.inert
      match cleared.1[i]? with
      | none => { dialogs := cleared.1, openDialogs := stack1, inert := cleared.2 }
      | some d2 =>
        { dialogs := cleared.1.set i { d2 with inertElements := d2.toInert },
          openDialogs := stack1,
          inert := addInert cleared.2 d2.toInert }

/-- Embeds hide() and the settled outcome of handleHide, handleHideAfter
and cleanupAfterClose: no-op when closed or mid-transition; otherwise the
dialog leaves openDialogs, closes, removes its own inerts, and when
dialogs remain open the new topmost one recomputes and re-applies its
inert elements. -/
def hideDialog (w : DialogWorld) (i : Nat) : DialogWorld :=
  match w.dialogs[i]? with
  | none => w
  | some d =>
    if ! d.openProp then w
    else if d.isTransitioning then w
    else
      let stack1 := w.openDialogs.erase i
      let dialogs1 := w.dialogs.set i { d with openProp := false, inertElements := [] }
      let inert1 := clearInert w.inert d.inertElements
      match stack1.getLast? with
      | none => { dialogs := dialogs1, openDialogs := stack1, inert := inert1 }
      | some j =>
        match dialogs1[j]? with
        | none => { dialogs := dialogs1, openDialogs := stack1, inert := inert1 }
        | some dj =>
          { dialogs := dialogs1.set j { dj with inertElements := dj.toInert },
            openDialogs := stack1,
            inert := addInert inert1 dj.toInert }

/-- Embeds the static document keydown listener for Escape: with at least
one entry in openDialogs, the last entry is the topmost dialog; hide runs
only when that dialog is open and dismissable. -/
def escapeKey (w : DialogWorld) : DialogWorld :=
  match w.openDialogs.getLast? with
  | none => w
  | some top =>
    match w.dialogs[top]? with
    | none => w
    | some d =>
      if d.openProp && d.dismissable then hideDialog w top else w

theorem getElem?_set_map_open (l : List DialogState) (k : Nat) (dk d2 : DialogState)
    (hk : l[k]? = some dk) (hopen : d2.openProp = dk.openProp) (j : Nat) :
    ((l.set k d2)[j]?).map DialogState.openProp = (l[j]?).map DialogState.openProp := by
  by_cases hjk : j = k
  · subst hjk
    have hlt : j < l.length := by
      by_contra hcon
      rw [List.getElem?_eq_none (by omega)] at hk
      cases hk
    rw [List.getElem?_set_self hlt, hk]
    simp [hopen]
  · rw [List.getElem?_set_ne (fun he => hjk he.symm)]

/-- Hiding one dialog never changes the open state of another. -/
theorem hideDialog_open_others (w : DialogWorld) (i j : Nat) (hij : i ≠ j) :
    (((hideDialog w i).dialogs)[j]?).map DialogState.openProp
      = (w.dialogs[j]?).map DialogState.openProp := by
  simp only [hideDialog]
  cases hd : w.dialogs[i]? with
  | none => rfl
  | some d =>
    simp only [hd]
    by_cases h1 : (! d.openProp) = true
    · rw [if_pos h1]
    · rw [if_neg h1]
      by_cases h2 : d.isTransitioning = true
      · rw [if_pos h2]
      · rw [if_neg h2]
        have hpre : ((w.dialogs.set i
            { d with openProp := false, inertElements := [] })[j]?).map DialogState.openProp
            = (w.dialogs[j]?).map DialogState.openProp := by
          rw [List.getElem?_set_ne hij]
        cases hl : (w.openDialogs.erase i).getLast? with
        | none =>
          simp only [hl]
          exact hpre
        | some k =>
          simp only [hl]
          cases hk : (w.dialogs.set i { d with openProp := false, inertElements := [] })[k]? with
          | none =>
            simp only [hk]
            exact hpre
          | some dk =>
            simp only [hk]
            rw [getElem?_set_map_open _ k dk { dk with inertElements := dk.toInert } hk rfl j]
            exact hpre

/-- The two-dialog scenario page: dialog 0 (D1) and dialog 1 (D2), both
dismissable, both closed; element 0 is the page content, element 1 the
host of D1, element 2 the host of D2; each dialog's getElementsToInert
yields the page content and the other dialog's host. -/
def dialogDemoWorld : DialogWorld :=
  { dialogs :=
      [{ openProp := false, dismissable := true, isTransitioning := false,
         inertElements := [], toInert := [0, 2] },
       { openProp := false, dismissable := true, isTransitioning := false,
         inertElements := [], toInert := [0, 1] }],
    openDialogs := [], inert := [] }

/-- The scenario state after opening D1 and then D2. -/
def dialogDemoAfterOpen : DialogWorld :=
  showDialog (showDialog dialogDemoWorld 0) 1

/-- C8: Escape resolves to the topmost open dialog only: the open state
of every other dialog is untouched, and nothing at all happens unless the
topmost dialog is open and dismissable. In the scenario of opening D1
then D2, Escape closes D2 only, leaves D1 open, pops the stack to D1 and
re-applies inertness for D1 as the new topmost dialog (the page content
and the D2 host become inert, D1's host does not). -/
theorem claim_C8_escape_topmost :
    (∀ (w : DialogWorld) (j : Nat), w.openDialogs.getLast? ≠ some j →
        (((escapeKey w).dialogs)[j]?).map DialogState.openProp
          = (w.dialogs[j]?).map DialogState.openProp)
    ∧ (∀ (w : DialogWorld) (top : Nat) (d : DialogState),
        w.openDialogs.getLast? = some top → w.dialogs[top]? = some d →
        (d.openProp && d.dismissable) = false → escapeKey w = w)
    ∧ dialogDemoAfterOpen.openDialogs = [0, 1]
    ∧ ((escapeKey dialogDemoAfterOpen).dialogs[1]?).map DialogState.openProp = some false
    ∧ ((escapeKey dialogDemoAfterOpen).dialogs[0]?).map DialogState.openProp = some true
    ∧ (escapeKey dialogDemoAfterOpen).openDialogs = [0]
    ∧ (escapeKey dialogDemoAfterOpen).inert = [0, 2] := by
  refine ⟨?_, ?_, by decide, by decide, by decide, by decide, by decide⟩
  · intro w j hne
    simp only [escapeKey]
    cases hl : w.openDialogs.getLast? with
    | none => rfl
    | some top =>
      simp only [hl]
      cases hdd : w.dialogs[top]? with
      | none => rfl
      | some d =>
        simp only [hdd]
        by_cases hcond : (d.openProp && d.dismissable) = true
        · rw [if_pos hcond]
          have htj : top ≠ j := fun he => hne (he ▸ hl)
          exact hideDialog_open_others w top j htj
        · rw [if_neg hcond]
  · intro w top d hl hdd hfalse
    simp only [escapeKey, hl, hdd]
    rw [if_neg (by simp [hfalse])]

/-- Witness for C8 at the concrete scenario: D1 is not the topmost entry,
so Escape leaves its open state untouched. -/
theorem claim_C8_witness :
    ((escapeKey dialogDemoAfterOpen).dialogs[0]?).map DialogState.openProp
      = (dialogDemoAfterOpen.dialogs[0]?).map DialogState.openProp :=
  claim_C8_escape_topmost.1 dialogDemoAfterOpen 0 (by decide)

end WulfeUI
